import Mathlib

/-!
Verification of the barplas-bizflow business portal against its
natural-language specification.  The definitions below are shallow
embeddings of the repository's code: the SQL trigger function
`update_order_status_from_items`, the UI status-configuration tables,
the report aggregation in `ReportGenerator.tsx`, the dashboard
aggregation in `BusinessDashboard.tsx`, the `useOrderOperations` hook,
the quote calculator in `BusinessTools.tsx` and the `StatusBadge`
component.  Theorems state and settle the claims about them.
-/

namespace Barplas

/-! ## Order and item status vocabularies

From the check constraints in migration `20250809230122` (and re-added in
`20250809230204`): `pedidos.estado` ranges over seven workflow states and
`pedido_items.estado` over six item states. -/

inductive ItemEstado where
  | pendiente
  | confirmado
  | no_confirmado
  | sin_stock
  | preparando
  | enviado
  deriving DecidableEq, Repr

inductive OrderEstado where
  | recibido
  | revision
  | confirmado_parcial
  | preparacion
  | enviado
  | entregado
  | cancelado
  deriving DecidableEq, Repr

/-! ## The trigger function `update_order_status_from_items`

The PL/pgSQL trigger fires after an item-status update and recomputes the
parent order's `estado` from the current statuses of all items of that
order:

    estado = CASE
      WHEN count(items with estado = confirmado) = count(items) THEN preparacion
      WHEN count(items with estado IN (confirmado, no_confirmado)) > 0 THEN confirmado_parcial
      ELSE estado
    END

We embed it as a pure function of the list of item statuses of the order
(as they stand after the firing update) and the order's current status. -/

def update_order_status_from_items (items : List ItemEstado) (estado : OrderEstado) :
    OrderEstado :=
  if items.countP (fun i => decide (i = ItemEstado.confirmado)) = items.length then
    OrderEstado.preparacion
  else if 0 < items.countP
      (fun i => decide (i = ItemEstado.confirmado ∨ i = ItemEstado.no_confirmado)) then
    OrderEstado.confirmado_parcial
  else estado

/-! ## Order-status display configuration

`ORDER_STATUS_CONFIG` from `OperationalOrderManager.tsx`: a fixed table
mapping each workflow status to a label, a color class, an icon name and a
progress percentage. -/

structure StatusCfg where
  label : String
  color : String
  icon : String
  progress : Nat
  deriving DecidableEq, Repr

def ORDER_STATUS_CONFIG : List (String × StatusCfg) :=
  [ ("recibido", ⟨"Recibido", "bg-blue-500", "Clock", 10⟩)
  , ("revision", ⟨"En Revisión", "bg-yellow-500", "AlertTriangle", 25⟩)
  , ("confirmado_parcial", ⟨"Confirmado Parcial", "bg-orange-500", "CheckCircle2", 50⟩)
  , ("preparacion", ⟨"En Preparación", "bg-purple-500", "Clock", 75⟩)
  , ("enviado", ⟨"Enviado", "bg-green-500", "Truck", 90⟩)
  , ("entregado", ⟨"Entregado", "bg-green-600", "CheckCircle2", 100⟩)
  , ("cancelado", ⟨"Cancelado", "bg-red-500", "XCircle", 0⟩) ]

/-- The second order-status display table in the repository:
`ORDER_STATUSES` from the `OrderTimeline` component, keyed over the same
`pedidos.estado` column with six entries and a different vocabulary. -/
def ORDER_STATUSES : List (String × StatusCfg) :=
  [ ("pendiente", ⟨"Pendiente",
      "bg-yellow-100 text-yellow-800 dark:bg-yellow-900 dark:text-yellow-200",
      "Clock", 0⟩)
  , ("confirmado", ⟨"Confirmado",
      "bg-blue-100 text-blue-800 dark:bg-blue-900 dark:text-blue-200",
      "CheckCircle", 25⟩)
  , ("en_proceso", ⟨"En Proceso",
      "bg-orange-100 text-orange-800 dark:bg-orange-900 dark:text-orange-200",
      "Package", 50⟩)
  , ("enviado", ⟨"Enviado",
      "bg-purple-100 text-purple-800 dark:bg-purple-900 dark:text-purple-200",
      "Truck", 75⟩)
  , ("entregado", ⟨"Entregado",
      "bg-green-100 text-green-800 dark:bg-green-900 dark:text-green-200",
      "Star", 100⟩)
  , ("cancelado", ⟨"Cancelado",
      "bg-red-100 text-red-800 dark:bg-red-900 dark:text-red-200",
      "Clock", 0⟩) ]

/-- The check constraint `pedidos_estado_workflow_check`:
`estado IN ('recibido', ..., 'cancelado')`. -/
def pedidosEstadoWorkflowCheck (estado : String) : Bool :=
  decide (estado ∈ ["recibido", "revision", "confirmado_parcial", "preparacion",
    "enviado", "entregado", "cancelado"])

/-! ## StatusBadge variant derivation

`getVariantFromStatus` from `status-badge.tsx`: lowercase the status, then
look it up in three fixed lists.  JavaScript's `toLowerCase` on the ASCII
statuses involved coincides with the basic-latin lowering below. -/

def jsToLowerChar (c : Char) : Char :=
  if 65 ≤ c.toNat ∧ c.toNat ≤ 90 then Char.ofNat (c.toNat + 32) else c

def jsToLower (s : String) : String :=
  String.mk (s.data.map jsToLowerChar)

def getVariantFromStatus (status : String) : String :=
  let normalizedStatus := jsToLower status
  if normalizedStatus ∈ ["activo", "active", "confirmado", "entregado", "success"] then
    "success"
  else if normalizedStatus ∈ ["inactivo", "inactive", "cancelado", "error"] then
    "error"
  else if normalizedStatus ∈ ["pendiente", "pending", "revision", "preparacion"] then
    "warning"
  else
    "default"

/-! ## Helper lemmas -/

theorem charOfNat_toNat_shift :
    ∀ n ∈ Finset.Icc (65 : Nat) 90, (Char.ofNat (n + 32)).toNat = n + 32 := by
  decide

theorem jsToLowerChar_idem (c : Char) : jsToLowerChar (jsToLowerChar c) = jsToLowerChar c := by
  by_cases h : 65 ≤ c.toNat ∧ c.toNat ≤ 90
  · have hval : (Char.ofNat (c.toNat + 32)).toNat = c.toNat + 32 :=
      charOfNat_toNat_shift c.toNat (Finset.mem_Icc.mpr h)
    have hcond : ¬(65 ≤ (Char.ofNat (c.toNat + 32)).toNat ∧
        (Char.ofNat (c.toNat + 32)).toNat ≤ 90) := by
      rw [hval]; omega
    simp only [jsToLowerChar, if_pos h]
    rw [if_neg hcond]
  · simp only [jsToLowerChar, if_neg h]

theorem jsToLower_idem (s : String) : jsToLower (jsToLower s) = jsToLower s := by
  unfold jsToLower
  apply congrArg String.mk
  rw [List.map_map]
  exact List.map_congr_left fun a _ => jsToLowerChar_idem a

/-! ## Report aggregation (`ReportGenerator.tsx`, `processReportData`)

Orders arrive with a numeric total, a client id and their line items; an
item has a quantity, a unit price and (possibly) a product name.  The
numeric fields are modelled as exact rationals. -/

structure RItem where
  cantidad : Int
  precio_unitario : Int
  productName : Option String
  deriving DecidableEq, Repr

structure ROrder where
  total : Rat
  cliente_id : String
  items : List RItem
  deriving DecidableEq, Repr

/-- One step of building a JavaScript `Set`: insert unless present. -/
def jsSetInsert {α : Type} [DecidableEq α] (acc : List α) (x : α) : List α :=
  if x ∈ acc then acc else acc ++ [x]

/-- `new Set(l).size`: insert every element in order, count the result. -/
def jsSetSize {α : Type} [DecidableEq α] (l : List α) : Nat :=
  (l.foldl jsSetInsert []).length

structure ReportSummary where
  totalSales : Rat
  totalOrders : Nat
  totalClients : Nat
  avgOrderValue : Rat
  deriving DecidableEq, Repr

/-- The `summary` part of `processReportData`: reduce of totals, length,
set size of client ids, then the guarded average. -/
def processSummary (orders : List ROrder) : ReportSummary :=
  let totalSales := orders.foldl (fun sum o => sum + o.total) 0
  let totalOrders := orders.length
  let totalClients := jsSetSize (orders.map (fun o => o.cliente_id))
  { totalSales := totalSales
    totalOrders := totalOrders
    totalClients := totalClients
    avgOrderValue := if totalOrders > 0 then totalSales / (totalOrders : Rat) else 0 }

theorem mem_foldl_jsSetInsert {α : Type} [DecidableEq α] :
    ∀ (l acc : List α) (y : α), y ∈ l.foldl jsSetInsert acc ↔ y ∈ acc ∨ y ∈ l := by
  intro l
  induction l with
  | nil => intro acc y; simp
  | cons x l ih =>
    intro acc y
    rw [List.foldl_cons, ih]
    by_cases h : x ∈ acc
    · simp only [jsSetInsert, if_pos h, List.mem_cons]
      constructor
      · rintro (hy | hy)
        · exact Or.inl hy
        · exact Or.inr (Or.inr hy)
      · rintro (hy | hy | hy)
        · exact Or.inl hy
        · subst hy; exact Or.inl h
        · exact Or.inr hy
    · simp only [jsSetInsert, if_neg h, List.mem_append, List.mem_singleton, List.mem_cons]
      tauto

theorem nodup_foldl_jsSetInsert {α : Type} [DecidableEq α] :
    ∀ (l acc : List α), acc.Nodup → (l.foldl jsSetInsert acc).Nodup := by
  intro l
  induction l with
  | nil => intro acc h; simpa using h
  | cons x l ih =>
    intro acc h
    rw [List.foldl_cons]
    apply ih
    by_cases hx : x ∈ acc
    · simpa [jsSetInsert, hx] using h
    · simp [jsSetInsert, hx, List.nodup_append, h]

theorem jsSetSize_eq_card {α : Type} [DecidableEq α] (l : List α) :
    jsSetSize l = l.toFinset.card := by
  have h1 : (l.foldl jsSetInsert []).Nodup := nodup_foldl_jsSetInsert l [] List.nodup_nil
  have h2 : (l.foldl jsSetInsert []).toFinset = l.toFinset := by
    apply Finset.ext
    intro y
    simp [List.mem_toFinset, mem_foldl_jsSetInsert]
  rw [jsSetSize, ← List.toFinset_card_of_nodup h1, h2]

theorem foldl_add_eq {α : Type} (f : α → Rat) :
    ∀ (l : List α) (c : Rat), l.foldl (fun sum o => sum + f o) c = c + (l.map f).sum := by
  intro l
  induction l with
  | nil => intro c; simp
  | cons x l ih =>
    intro c
    rw [List.foldl_cons, ih, List.map_cons, List.sum_cons]
    ring

/-- C3: the report summary adds up every order total, counts the orders,
counts the distinct client ids, and the average order value is the
quotient when there are orders and 0 on an empty list. -/
theorem processReportData_summary (orders : List ROrder) :
    (processSummary orders).totalSales = (orders.map (fun o => o.total)).sum ∧
    (processSummary orders).totalOrders = orders.length ∧
    (processSummary orders).totalClients =
      (orders.map (fun o => o.cliente_id)).toFinset.card ∧
    (0 < orders.length →
      (processSummary orders).avgOrderValue =
        (orders.map (fun o => o.total)).sum / (orders.length : Rat)) ∧
    (orders = [] → (processSummary orders).avgOrderValue = 0) := by
  refine ⟨?_, rfl, ?_, ?_, ?_⟩
  · show orders.foldl (fun sum o => sum + o.total) 0 = _
    rw [foldl_add_eq]
    ring
  · exact jsSetSize_eq_card _
  · intro h
    show (if orders.length > 0 then
        orders.foldl (fun sum o => sum + o.total) 0 / (orders.length : Rat) else 0) = _
    rw [if_pos h, foldl_add_eq]
    ring_nf
  · intro h
    subst h
    rfl

def demoROrders : List ROrder :=
  [ { total := 10, cliente_id := "a", items := [] }
  , { total := 20, cliente_id := "b", items := [] } ]

/-- Witness for C3: on a two-order list the average is the sum divided by
the order count. -/
theorem processReportData_summary_witness :
    (processSummary demoROrders).avgOrderValue =
      (demoROrders.map (fun o => o.total)).sum / (demoROrders.length : Rat) :=
  (processReportData_summary demoROrders).2.2.2.1 (by decide)

/-! ## Top products (`ReportGenerator.tsx`, `processReportData`)

`processReportData` walks every order's items, accumulates per-product
sales (`quantity * unit price`) and quantities in a `Map` keyed by the
product name (with the fallback name for missing products), then sorts
the entries by descending sales and keeps the first ten. -/

def itemName (it : RItem) : String := it.productName.getD "Producto desconocido"

structure PStat where
  name : String
  sales : Int
  quantity : Int
  deriving DecidableEq, Repr

/-- One step of the `productStats` accumulation: bump the existing entry
for the item's product name, or append a fresh entry. -/
def addItemStat (acc : List PStat) (it : RItem) : List PStat :=
  if ∃ e ∈ acc, e.name = itemName it then
    acc.map (fun e => if e.name = itemName it then
      { e with sales := e.sales + it.cantidad * it.precio_unitario,
               quantity := e.quantity + it.cantidad }
    else e)
  else acc ++ [⟨itemName it, it.cantidad * it.precio_unitario, it.cantidad⟩]

def allItems (orders : List ROrder) : List RItem :=
  (orders.map (fun o => o.items)).flatten

def productStats (orders : List ROrder) : List PStat :=
  (allItems orders).foldl addItemStat []

/-- Descending-sales comparison, the `(a, b) => b.sales - a.sales`
comparator. -/
def salesGE (a b : PStat) : Prop := b.sales ≤ a.sales

instance : DecidableRel salesGE :=
  fun a b => inferInstanceAs (Decidable (b.sales ≤ a.sales))

instance : IsTotal PStat salesGE :=
  ⟨fun a b => le_total b.sales a.sales⟩

instance : IsTrans PStat salesGE :=
  ⟨fun _ _ _ h1 h2 => le_trans h2 h1⟩

def sortedStats (orders : List ROrder) : List PStat :=
  List.insertionSort salesGE (productStats orders)

def topProducts (orders : List ROrder) : List PStat :=
  (sortedStats orders).take 10

/-- The claim's formula for a product group's sales: the sum of
`quantity * unit price` over the items bearing that name. -/
def groupSales (n : String) (items : List RItem) : Int :=
  ((items.filter (fun it => decide (itemName it = n))).map
    (fun it => it.cantidad * it.precio_unitario)).sum

/-- The claim's formula for a product group's quantity. -/
def groupQty (n : String) (items : List RItem) : Int :=
  ((items.filter (fun it => decide (itemName it = n))).map
    (fun it => it.cantidad)).sum

/-- Value of the first entry with the given name, 0 when there is none. -/
def statVal (f : PStat → Int) : List PStat → String → Int
  | [], _ => 0
  | e :: rest, n => if e.name = n then f e else statVal f rest n

theorem groupSales_cons (n : String) (it : RItem) (items : List RItem) :
    groupSales n (it :: items) =
      (if itemName it = n then it.cantidad * it.precio_unitario else 0) +
        groupSales n items := by
  unfold groupSales
  rw [List.filter_cons]
  by_cases h : itemName it = n
  · simp [h]
  · simp [h]

theorem groupQty_cons (n : String) (it : RItem) (items : List RItem) :
    groupQty n (it :: items) =
      (if itemName it = n then it.cantidad else 0) + groupQty n items := by
  unfold groupQty
  rw [List.filter_cons]
  by_cases h : itemName it = n
  · simp [h]
  · simp [h]

theorem statVal_map_bump (f : PStat → Int) (g : PStat → PStat) (m : String) (d : Int)
    (hname : ∀ e, (g e).name = e.name)
    (hbump : ∀ e, e.name = m → f (g e) = f e + d)
    (hskip : ∀ e, e.name ≠ m → g e = e) :
    ∀ (acc : List PStat) (n : String),
      statVal f (acc.map g) n =
        statVal f acc n + (if n = m ∧ (∃ e ∈ acc, e.name = n) then d else 0) := by
  intro acc
  induction acc with
  | nil => intro n; simp [statVal]
  | cons e rest ih =>
    intro n
    rw [List.map_cons]
    simp only [statVal, hname]
    by_cases he : e.name = n
    · rw [if_pos he, if_pos he]
      by_cases hn : n = m
      · rw [hbump e (he.trans hn),
          if_pos ⟨hn, e, List.mem_cons_self e rest, he⟩]
      · rw [hskip e (by rw [he]; exact hn), if_neg (fun hc => hn hc.1), add_zero]
    · rw [if_neg he, if_neg he, ih n]
      congr 1
      apply if_congr _ rfl rfl
      constructor
      · rintro ⟨hnm, e', he', hn'⟩
        exact ⟨hnm, e', List.mem_cons_of_mem _ he', hn'⟩
      · rintro ⟨hnm, e', he', hn'⟩
        rcases List.mem_cons.mp he' with h | h
        · subst h; exact absurd hn' he
        · exact ⟨hnm, e', h, hn'⟩

theorem statVal_append_single (f : PStat → Int) (x : PStat) :
    ∀ (acc : List PStat) (n : String),
      statVal f (acc ++ [x]) n =
        if ∃ e ∈ acc, e.name = n then statVal f acc n
        else if x.name = n then f x else 0 := by
  intro acc
  induction acc with
  | nil => intro n; simp [statVal]
  | cons e rest ih =>
    intro n
    rw [List.cons_append]
    simp only [statVal]
    by_cases he : e.name = n
    · rw [if_pos he, if_pos ⟨e, List.mem_cons_self e rest, he⟩, if_pos he]
    · rw [if_neg he, ih n]
      by_cases hr : ∃ e' ∈ rest, e'.name = n
      · rcases hr with ⟨e', he', hn'⟩
        rw [if_pos ⟨e', he', hn'⟩,
          if_pos ⟨e', List.mem_cons_of_mem _ he', hn'⟩, if_neg he]
      · have hcons : ¬∃ e' ∈ e :: rest, e'.name = n := by
          rintro ⟨e', he', hn'⟩
          rcases List.mem_cons.mp he' with h | h
          · subst h; exact he hn'
          · exact hr ⟨e', h, hn'⟩
        rw [if_neg hr, if_neg hcons]

theorem statVal_eq_zero (f : PStat → Int) :
    ∀ (acc : List PStat) (n : String), (¬∃ e ∈ acc, e.name = n) →
      statVal f acc n = 0 := by
  intro acc
  induction acc with
  | nil => intro n _; rfl
  | cons e rest ih =>
    intro n h
    simp only [statVal]
    rw [if_neg (fun he => h ⟨e, List.mem_cons_self e rest, he⟩)]
    exact ih n (fun ⟨e', he', hn'⟩ => h ⟨e', List.mem_cons_of_mem _ he', hn'⟩)

end Barplas

namespace Barplas

theorem statVal_addItemStat (f : PStat → Int) (d : RItem → Int)
    (hbump : ∀ (e : PStat) (it : RItem), e.name = itemName it →
      f { e with sales := e.sales + it.cantidad * it.precio_unitario,
                 quantity := e.quantity + it.cantidad } = f e + d it)
    (hnew : ∀ it : RItem,
      f ⟨itemName it, it.cantidad * it.precio_unitario, it.cantidad⟩ = d it)
    (acc : List PStat) (it : RItem) (n : String) :
    statVal f (addItemStat acc it) n =
      statVal f acc n + (if itemName it = n then d it else 0) := by
  unfold addItemStat
  by_cases hp : ∃ e ∈ acc, e.name = itemName it
  · rw [if_pos hp]
    rw [statVal_map_bump f _ (itemName it) (d it)
      (fun e => by by_cases hc : e.name = itemName it <;> simp [hc])
      (fun e he => by rw [if_pos he]; exact hbump e it he)
      (fun e he => by rw [if_neg he]) acc n]
    by_cases hn : itemName it = n
    · rcases hp with ⟨e, he, hne⟩
      rw [if_pos ⟨hn.symm, e, he, hne.trans hn⟩, if_pos hn]
    · rw [if_neg (fun hc => hn hc.1.symm), if_neg hn]
  · rw [if_neg hp, statVal_append_single]
    by_cases hn : itemName it = n
    · have hacc : ¬∃ e ∈ acc, e.name = n := by
        rintro ⟨e, he, hne⟩
        exact hp ⟨e, he, hne.trans hn.symm⟩
      rw [if_neg hacc, if_pos hn, statVal_eq_zero f acc n hacc, hnew it, if_pos hn,
        zero_add]
    · by_cases hacc : ∃ e ∈ acc, e.name = n
      · rw [if_pos hacc, if_neg hn, add_zero]
      · rw [if_neg hacc, if_neg hn, if_neg hn, statVal_eq_zero f acc n hacc, add_zero]

theorem names_addItemStat (acc : List PStat) (it : RItem) :
    (addItemStat acc it).map PStat.name =
      if ∃ e ∈ acc, e.name = itemName it then acc.map PStat.name
      else acc.map PStat.name ++ [itemName it] := by
  unfold addItemStat
  by_cases hp : ∃ e ∈ acc, e.name = itemName it
  · rw [if_pos hp, if_pos hp, List.map_map]
    exact List.map_congr_left fun e _ => by
      by_cases hc : e.name = itemName it <;> simp [hc]
  · rw [if_neg hp, if_neg hp, List.map_append]
    rfl

theorem foldl_addItemStat_spec :
    ∀ (items : List RItem) (acc : List PStat),
      ((acc.map PStat.name).Nodup →
        ((items.foldl addItemStat acc).map PStat.name).Nodup) ∧
      (∀ n : String, n ∈ (items.foldl addItemStat acc).map PStat.name ↔
        n ∈ acc.map PStat.name ∨ ∃ it ∈ items, itemName it = n) ∧
      (∀ n : String, statVal PStat.sales (items.foldl addItemStat acc) n =
        statVal PStat.sales acc n + groupSales n items) ∧
      (∀ n : String, statVal PStat.quantity (items.foldl addItemStat acc) n =
        statVal PStat.quantity acc n + groupQty n items) := by
  intro items
  induction items with
  | nil =>
    intro acc
    refine ⟨fun h => h, fun n => by simp, fun n => ?_, fun n => ?_⟩
    · rw [List.foldl_nil]
      show _ = _ + groupSales n []
      rw [groupSales]
      simp
    · rw [List.foldl_nil]
      show _ = _ + groupQty n []
      rw [groupQty]
      simp
  | cons it items ih =>
    intro acc
    rw [List.foldl_cons]
    have hmem0 : ∀ n : String, n ∈ (addItemStat acc it).map PStat.name ↔
        n ∈ acc.map PStat.name ∨ itemName it = n := by
      intro n
      rw [names_addItemStat]
      by_cases hp : ∃ e ∈ acc, e.name = itemName it
      · rw [if_pos hp]
        constructor
        · exact Or.inl
        · rintro (h | h)
          · exact h
          · rcases hp with ⟨e, he, hne⟩
            exact h ▸ List.mem_map.mpr ⟨e, he, hne⟩
      · rw [if_neg hp, List.mem_append, List.mem_singleton]
        exact or_congr Iff.rfl eq_comm
    refine ⟨?_, ?_, ?_, ?_⟩
    · intro h
      apply (ih (addItemStat acc it)).1
      rw [names_addItemStat]
      by_cases hp : ∃ e ∈ acc, e.name = itemName it
      · rwa [if_pos hp]
      · rw [if_neg hp, List.nodup_append]
        refine ⟨h, List.nodup_singleton _, ?_⟩
        intro n hn hmem
        rcases List.mem_singleton.mp hmem with rfl
        rcases List.mem_map.mp hn with ⟨e, he, hne⟩
        exact hp ⟨e, he, hne⟩
    · intro n
      rw [(ih (addItemStat acc it)).2.1 n, hmem0 n]
      constructor
      · rintro ((h | h) | h)
        · exact Or.inl h
        · exact Or.inr ⟨it, List.mem_cons_self it items, h⟩
        · rcases h with ⟨it', hit', hn'⟩
          exact Or.inr ⟨it', List.mem_cons_of_mem _ hit', hn'⟩
      · rintro (h | h)
        · exact Or.inl (Or.inl h)
        · rcases h with ⟨it', hit', hn'⟩
          rcases List.mem_cons.mp hit' with h | h
          · exact Or.inl (Or.inr (h ▸ hn'))
          · exact Or.inr ⟨it', h, hn'⟩
    · intro n
      rw [(ih (addItemStat acc it)).2.2.1 n,
        statVal_addItemStat PStat.sales (fun it => it.cantidad * it.precio_unitario)
          (fun e it _ => rfl) (fun it => rfl) acc it n,
        groupSales_cons]
      ring
    · intro n
      rw [(ih (addItemStat acc it)).2.2.2 n,
        statVal_addItemStat PStat.quantity (fun it => it.cantidad)
          (fun e it _ => rfl) (fun it => rfl) acc it n,
        groupQty_cons]
      ring

theorem statVal_of_mem (f : PStat → Int) :
    ∀ (L : List PStat), (L.map PStat.name).Nodup →
      ∀ e ∈ L, statVal f L e.name = f e := by
  intro L
  induction L with
  | nil => intro _ e he; exact absurd he (List.not_mem_nil e)
  | cons x rest ih =>
    intro hnd e he
    have hnd' := hnd
    rw [List.map_cons, List.nodup_cons] at hnd'
    simp only [statVal]
    rcases List.mem_cons.mp he with rfl | hrest
    · rw [if_pos rfl]
    · by_cases hx : x.name = e.name
      · exact absurd (hx ▸ List.mem_map.mpr ⟨e, hrest, rfl⟩) hnd'.1
      · rw [if_neg hx]
        exact ih hnd'.2 e hrest

/-- C4: `topProducts` groups the order items by product name (sales are
the sum of quantity times unit price, quantity the sum of quantities,
one entry per name, a name appears iff some item bears it), keeps at
most 10 entries sorted by non-increasing sales, and every excluded
group's sales are no greater than any included entry's sales. -/
theorem topProducts_spec (orders : List ROrder) :
    (topProducts orders).length ≤ 10 ∧
    (topProducts orders).Pairwise (fun a b => b.sales ≤ a.sales) ∧
    ((productStats orders).map PStat.name).Nodup ∧
    (∀ n : String, (∃ e ∈ productStats orders, e.name = n) ↔
      ∃ it ∈ allItems orders, itemName it = n) ∧
    (∀ e ∈ productStats orders,
      e.sales = groupSales e.name (allItems orders) ∧
      e.quantity = groupQty e.name (allItems orders)) ∧
    (∀ e ∈ topProducts orders, e ∈ productStats orders) ∧
    (∀ g ∈ productStats orders, g.name ∉ (topProducts orders).map PStat.name →
      ∀ t ∈ topProducts orders, g.sales ≤ t.sales) := by
  have hspec := foldl_addItemStat_spec (allItems orders) []
  have hnodup : ((productStats orders).map PStat.name).Nodup := hspec.1 (by simp)
  have hsorted : (sortedStats orders).Pairwise salesGE :=
    List.sorted_insertionSort salesGE (productStats orders)
  have hperm : List.Perm (sortedStats orders) (productStats orders) :=
    List.perm_insertionSort salesGE (productStats orders)
  refine ⟨?_, ?_, hnodup, ?_, ?_, ?_, ?_⟩
  · show ((sortedStats orders).take 10).length ≤ 10
    simp [List.length_take]
  · exact List.Pairwise.sublist (List.take_sublist 10 (sortedStats orders)) hsorted
  · intro n
    constructor
    · rintro ⟨e, he, rfl⟩
      have hm : e.name ∈ (productStats orders).map PStat.name :=
        List.mem_map.mpr ⟨e, he, rfl⟩
      rcases (hspec.2.1 e.name).mp hm with h | h
      · simp at h
      · exact h
    · intro h
      have hm : n ∈ (productStats orders).map PStat.name :=
        (hspec.2.1 n).mpr (Or.inr h)
      rcases List.mem_map.mp hm with ⟨e, he, hn⟩
      exact ⟨e, he, hn⟩
  · intro e he
    constructor
    · have h := (statVal_of_mem PStat.sales (productStats orders) hnodup e he).symm.trans
        (hspec.2.2.1 e.name)
      have h0 : statVal PStat.sales [] e.name = 0 := rfl
      rw [h0, zero_add] at h
      exact h
    · have h := (statVal_of_mem PStat.quantity (productStats orders) hnodup e he).symm.trans
        (hspec.2.2.2 e.name)
      have h0 : statVal PStat.quantity [] e.name = 0 := rfl
      rw [h0, zero_add] at h
      exact h
  · intro e he
    exact hperm.mem_iff.mp (List.Sublist.subset (List.take_sublist 10 _) he)
  · intro g hg hnot t ht
    have hgs : g ∈ sortedStats orders := hperm.mem_iff.mpr hg
    have hsplit := List.take_append_drop 10 (sortedStats orders)
    have hpw : ((sortedStats orders).take 10 ++ (sortedStats orders).drop 10).Pairwise
        salesGE := by
      rw [hsplit]; exact hsorted
    have hgm : g ∈ (sortedStats orders).take 10 ++ (sortedStats orders).drop 10 := by
      rw [hsplit]; exact hgs
    rcases List.mem_append.mp hgm with h | h
    · exact absurd (List.mem_map.mpr ⟨g, h, rfl⟩) hnot
    · exact (List.pairwise_append.mp hpw).2.2 t ht g h

def demo11Items : List RItem :=
  [ ⟨1, 11, some "p01"⟩, ⟨1, 10, some "p02"⟩, ⟨1, 9, some "p03"⟩, ⟨1, 8, some "p04"⟩
  , ⟨1, 7, some "p05"⟩, ⟨1, 6, some "p06"⟩, ⟨1, 5, some "p07"⟩, ⟨1, 4, some "p08"⟩
  , ⟨1, 3, some "p09"⟩, ⟨1, 2, some "p10"⟩, ⟨1, 1, some "p11"⟩ ]

def demo11Orders : List ROrder :=
  [{ total := 66, cliente_id := "c", items := demo11Items }]

/-- Witness for C4: with eleven product groups, the excluded group
(`p11`, sales 1) has sales no greater than the top included entry. -/
theorem topProducts_spec_witness :
    (⟨"p11", 1, 1⟩ : PStat).sales ≤ (⟨"p01", 11, 1⟩ : PStat).sales :=
  (topProducts_spec demo11Orders).2.2.2.2.2.2 ⟨"p11", 1, 1⟩ (by decide) (by decide)
    ⟨"p01", 11, 1⟩ (by decide)

/-! ## Business dashboard (`BusinessDashboard.tsx`, `loadDashboardData`)

The dashboard query fetches the orders of the current user's clients
ordered by `created_at` descending **with `limit(10)`**, then computes
all statistics from that fetched list.  The `orders` parameter below is
the full ordered result the server would return; the code sees only its
first ten elements.  Timestamps are modelled as integers and the
start-of-month cutoff is a parameter. -/

structure DOrder where
  total : Int
  fecha_pedido : Int
  clienteNombre : Option String
  deriving DecidableEq, Repr

def fetchedOrders (orders : List DOrder) : List DOrder := orders.take 10

def ventasTotal (orders : List DOrder) : Int :=
  (fetchedOrders orders).foldl (fun sum p => sum + p.total) 0

def pedidosMes (orders : List DOrder) (inicioMes : Int) : Nat :=
  ((fetchedOrders orders).filter (fun p => decide (inicioMes ≤ p.fecha_pedido))).length

/-- `(p.clientes as any)?.nombre` guarded by JavaScript truthiness:
a missing or empty name is skipped. -/
def clientName? (p : DOrder) : Option String :=
  match p.clienteNombre with
  | none => none
  | some n => if n = "" then none else some n

/-- `clientePedidos[nombre] = (clientePedidos[nombre] || 0) + 1` on an
object whose keys keep insertion order. -/
def bumpCount (acc : List (String × Nat)) (n : String) : List (String × Nat) :=
  if ∃ e ∈ acc, e.1 = n then
    acc.map (fun e => if e.1 = n then (e.1, e.2 + 1) else e)
  else acc ++ [(n, 1)]

/-- One fetched order's contribution to the client-count object. -/
def dashStep (acc : List (String × Nat)) (p : DOrder) : List (String × Nat) :=
  match clientName? p with
  | some n => bumpCount acc n
  | none => acc

def clienteCounts (orders : List DOrder) : List (String × Nat) :=
  (fetchedOrders orders).foldl dashStep []

/-- Descending-count comparison, the `([,a],[,b]) => b - a` comparator. -/
def countGE (a b : String × Nat) : Prop := b.2 ≤ a.2

instance : DecidableRel countGE :=
  fun a b => inferInstanceAs (Decidable (b.2 ≤ a.2))

instance : IsTotal (String × Nat) countGE :=
  ⟨fun a b => Nat.le_total b.2 a.2⟩

instance : IsTrans (String × Nat) countGE :=
  ⟨fun _ _ _ h1 h2 => Nat.le_trans h2 h1⟩

/-- `Object.entries(clientePedidos).sort(([,a],[,b]) => b - a)[0]?.[0] ||
"Sin datos"`. -/
def clienteMasActivo (orders : List DOrder) : String :=
  match List.insertionSort countGE (clienteCounts orders) with
  | [] => "Sin datos"
  | e :: _ => e.1

/-- The claim's formula: how many fetched orders carry the given client
name. -/
def countName (n : String) (orders : List DOrder) : Nat :=
  (orders.filter (fun p => decide (clientName? p = some n))).length

/-- First count recorded for a name, 0 when there is none. -/
def cntVal : List (String × Nat) → String → Nat
  | [], _ => 0
  | e :: rest, n => if e.1 = n then e.2 else cntVal rest n

theorem countName_cons (n : String) (p : DOrder) (os : List DOrder) :
    countName n (p :: os) =
      (if clientName? p = some n then 1 else 0) + countName n os := by
  unfold countName
  rw [List.filter_cons]
  by_cases h : clientName? p = some n
  · simp [h]
    omega
  · simp [h]

theorem cntVal_map_bump (m : String) :
    ∀ (acc : List (String × Nat)) (n : String),
      cntVal (acc.map (fun e => if e.1 = m then (e.1, e.2 + 1) else e)) n =
        cntVal acc n + (if n = m ∧ (∃ e ∈ acc, e.1 = n) then 1 else 0) := by
  intro acc
  induction acc with
  | nil => intro n; simp [cntVal]
  | cons e rest ih =>
    intro n
    rw [List.map_cons]
    simp only [cntVal]
    have hname : (if e.1 = m then (e.1, e.2 + 1) else e).1 = e.1 := by
      by_cases hc : e.1 = m <;> simp [hc]
    rw [hname]
    by_cases he : e.1 = n
    · rw [if_pos he, if_pos he]
      by_cases hn : n = m
      · rw [if_pos (he.trans hn), if_pos ⟨hn, e, List.mem_cons_self e rest, he⟩]
      · rw [if_neg (fun hc => hn (by rw [← he]; exact hc)),
          if_neg (fun hc => hn hc.1), Nat.add_zero]
    · rw [if_neg he, if_neg he, ih n]
      congr 1
      apply if_congr _ rfl rfl
      constructor
      · rintro ⟨hnm, e', he', hn'⟩
        exact ⟨hnm, e', List.mem_cons_of_mem _ he', hn'⟩
      · rintro ⟨hnm, e', he', hn'⟩
        rcases List.mem_cons.mp he' with h | h
        · subst h; exact absurd hn' he
        · exact ⟨hnm, e', h, hn'⟩

theorem cntVal_append_single (x : String × Nat) :
    ∀ (acc : List (String × Nat)) (n : String),
      cntVal (acc ++ [x]) n =
        if ∃ e ∈ acc, e.1 = n then cntVal acc n
        else if x.1 = n then x.2 else 0 := by
  intro acc
  induction acc with
  | nil => intro n; simp [cntVal]
  | cons e rest ih =>
    intro n
    rw [List.cons_append]
    simp only [cntVal]
    by_cases he : e.1 = n
    · rw [if_pos he, if_pos ⟨e, List.mem_cons_self e rest, he⟩, if_pos he]
    · rw [if_neg he, ih n]
      by_cases hr : ∃ e' ∈ rest, e'.1 = n
      · rcases hr with ⟨e', he', hn'⟩
        rw [if_pos ⟨e', he', hn'⟩,
          if_pos ⟨e', List.mem_cons_of_mem _ he', hn'⟩, if_neg he]
      · have hcons : ¬∃ e' ∈ e :: rest, e'.1 = n := by
          rintro ⟨e', he', hn'⟩
          rcases List.mem_cons.mp he' with h | h
          · subst h; exact he hn'
          · exact hr ⟨e', h, hn'⟩
        rw [if_neg hr, if_neg hcons]

theorem cntVal_eq_zero :
    ∀ (acc : List (String × Nat)) (n : String), (¬∃ e ∈ acc, e.1 = n) →
      cntVal acc n = 0 := by
  intro acc
  induction acc with
  | nil => intro n _; rfl
  | cons e rest ih =>
    intro n h
    simp only [cntVal]
    rw [if_neg (fun he => h ⟨e, List.mem_cons_self e rest, he⟩)]
    exact ih n (fun ⟨e', he', hn'⟩ => h ⟨e', List.mem_cons_of_mem _ he', hn'⟩)

theorem cntVal_bumpCount (acc : List (String × Nat)) (m n : String) :
    cntVal (bumpCount acc m) n = cntVal acc n + (if m = n then 1 else 0) := by
  unfold bumpCount
  by_cases hp : ∃ e ∈ acc, e.1 = m
  · rw [if_pos hp, cntVal_map_bump m acc n]
    by_cases hn : m = n
    · rcases hp with ⟨e, he, hem⟩
      rw [if_pos ⟨hn.symm, e, he, hem.trans hn⟩, if_pos hn]
    · rw [if_neg (fun hc => hn hc.1.symm), if_neg hn]
  · rw [if_neg hp, cntVal_append_single]
    by_cases hn : m = n
    · have hacc : ¬∃ e ∈ acc, e.1 = n := by
        rintro ⟨e, he, hne⟩
        exact hp ⟨e, he, hne.trans hn.symm⟩
      rw [if_neg hacc, cntVal_eq_zero acc n hacc, Nat.zero_add]
    · by_cases hacc : ∃ e ∈ acc, e.1 = n
      · rw [if_pos hacc, if_neg hn, Nat.add_zero]
      · rw [if_neg hacc, cntVal_eq_zero acc n hacc, Nat.zero_add]

theorem names_bumpCount (acc : List (String × Nat)) (m : String) :
    (bumpCount acc m).map Prod.fst =
      if ∃ e ∈ acc, e.1 = m then acc.map Prod.fst
      else acc.map Prod.fst ++ [m] := by
  unfold bumpCount
  by_cases hp : ∃ e ∈ acc, e.1 = m
  · rw [if_pos hp, if_pos hp, List.map_map]
    exact List.map_congr_left fun e _ => by
      by_cases hc : e.1 = m <;> simp [hc]
  · rw [if_neg hp, if_neg hp, List.map_append]
    rfl

theorem foldl_dashStep_spec :
    ∀ (os : List DOrder) (acc : List (String × Nat)),
      ((acc.map Prod.fst).Nodup → ((os.foldl dashStep acc).map Prod.fst).Nodup) ∧
      (∀ n : String, n ∈ (os.foldl dashStep acc).map Prod.fst ↔
        n ∈ acc.map Prod.fst ∨ ∃ p ∈ os, clientName? p = some n) ∧
      (∀ n : String, cntVal (os.foldl dashStep acc) n = cntVal acc n + countName n os) := by
  intro os
  induction os with
  | nil =>
    intro acc
    refine ⟨fun h => h, fun n => by simp, fun n => ?_⟩
    rw [List.foldl_nil]
    show _ = _ + countName n []
    rw [countName]
    simp
  | cons p os ih =>
    intro acc
    rw [List.foldl_cons]
    rcases hc : clientName? p with _ | m
    · have hstep : dashStep acc p = acc := by
        unfold dashStep
        rw [hc]
      rw [hstep]
      refine ⟨(ih acc).1, fun n => ?_, fun n => ?_⟩
      · rw [(ih acc).2.1 n]
        constructor
        · rintro (h | ⟨p', hp', hn'⟩)
          · exact Or.inl h
          · exact Or.inr ⟨p', List.mem_cons_of_mem _ hp', hn'⟩
        · rintro (h | ⟨p', hp', hn'⟩)
          · exact Or.inl h
          · rcases List.mem_cons.mp hp' with h' | h'
            · subst h'; rw [hc] at hn'; exact absurd hn' (by simp)
            · exact Or.inr ⟨p', h', hn'⟩
      · rw [(ih acc).2.2 n, countName_cons, hc]
        simp
    · have hstep : dashStep acc p = bumpCount acc m := by
        unfold dashStep
        rw [hc]
      rw [hstep]
      have hmem : ∀ n : String, n ∈ (bumpCount acc m).map Prod.fst ↔
          n ∈ acc.map Prod.fst ∨ m = n := by
        intro n
        rw [names_bumpCount]
        by_cases hp : ∃ e ∈ acc, e.1 = m
        · rw [if_pos hp]
          constructor
          · exact Or.inl
          · rintro (h | h)
            · exact h
            · rcases hp with ⟨e, he, hne⟩
              exact h ▸ List.mem_map.mpr ⟨e, he, hne⟩
        · rw [if_neg hp, List.mem_append, List.mem_singleton]
          exact or_congr Iff.rfl eq_comm
      refine ⟨?_, fun n => ?_, fun n => ?_⟩
      · intro h
        apply (ih (bumpCount acc m)).1
        rw [names_bumpCount]
        by_cases hp : ∃ e ∈ acc, e.1 = m
        · rwa [if_pos hp]
        · rw [if_neg hp, List.nodup_append]
          refine ⟨h, List.nodup_singleton _, ?_⟩
          intro n hn hm
          rcases List.mem_singleton.mp hm with rfl
          rcases List.mem_map.mp hn with ⟨e, he, hne⟩
          exact hp ⟨e, he, hne⟩
      · rw [(ih (bumpCount acc m)).2.1 n, hmem n]
        constructor
        · rintro ((h | h) | ⟨p', hp', hn'⟩)
          · exact Or.inl h
          · exact Or.inr ⟨p, List.mem_cons_self p os, by rw [hc, h]⟩
          · exact Or.inr ⟨p', List.mem_cons_of_mem _ hp', hn'⟩
        · rintro (h | ⟨p', hp', hn'⟩)
          · exact Or.inl (Or.inl h)
          · rcases List.mem_cons.mp hp' with h' | h'
            · subst h'
              rw [hc] at hn'
              exact Or.inl (Or.inr (Option.some.inj hn'))
            · exact Or.inr ⟨p', h', hn'⟩
      · rw [(ih (bumpCount acc m)).2.2 n, cntVal_bumpCount acc m n, countName_cons, hc]
        by_cases hn : m = n
        · rw [if_pos hn, if_pos (by rw [hn])]
          omega
        · rw [if_neg hn, if_neg (by simpa using fun hc2 => hn hc2)]
          omega

theorem cntVal_of_mem :
    ∀ (L : List (String × Nat)), (L.map Prod.fst).Nodup →
      ∀ e ∈ L, cntVal L e.1 = e.2 := by
  intro L
  induction L with
  | nil => intro _ e he; exact absurd he (List.not_mem_nil e)
  | cons x rest ih =>
    intro hnd e he
    have hnd' := hnd
    rw [List.map_cons, List.nodup_cons] at hnd'
    simp only [cntVal]
    rcases List.mem_cons.mp he with rfl | hrest
    · rw [if_pos rfl]
    · by_cases hx : x.1 = e.1
      · exact absurd (hx ▸ List.mem_map.mpr ⟨e, hrest, rfl⟩) hnd'.1
      · rw [if_neg hx]
        exact ih hnd'.2 e hrest

theorem insertionSort_head_max (L : List (String × Nat)) (e : String × Nat)
    (rest : List (String × Nat)) (h : List.insertionSort countGE L = e :: rest) :
    ∀ x ∈ L, x.2 ≤ e.2 := by
  intro x hx
  have hperm := List.perm_insertionSort countGE L
  have hx' : x ∈ e :: rest := h ▸ hperm.mem_iff.mpr hx
  have hs : (e :: rest).Pairwise countGE := h ▸ List.sorted_insertionSort countGE L
  rcases List.mem_cons.mp hx' with rfl | hxr
  · exact le_refl _
  · exact (List.pairwise_cons.mp hs).1 x hxr

theorem foldl_add_eq_int {α : Type} (f : α → Int) :
    ∀ (l : List α) (c : Int), l.foldl (fun sum o => sum + f o) c = c + (l.map f).sum := by
  intro l
  induction l with
  | nil => intro c; simp
  | cons x l ih =>
    intro c
    rw [List.foldl_cons, ih, List.map_cons, List.sum_cons]
    ring

def cex11Orders : List DOrder := List.replicate 11 ⟨1, 0, none⟩

/-- Counterexample to C5 as stated: with eleven orders of total 1 each,
the dashboard's total-sales statistic is 10 (the query carries
`limit(10)`), not the sum 11 over every order of the user's clients. -/
theorem dashboard_stats_counterexample :
    ventasTotal cex11Orders ≠ (cex11Orders.map (fun p => p.total)).sum := by
  decide

/-- C5 (amended): the dashboard statistics are computed over the fetched
orders — the at most ten most recent orders of the user's clients — not
over all of them: total sales is the sum of their totals, the monthly
count is the number of them dated on or after the start-of-month cutoff,
and the top client is a client name carried by a fetched order whose
fetched-order count is maximal, or `Sin datos` when no fetched order
carries a client name. -/
theorem dashboard_stats_over_fetched (orders : List DOrder) (inicioMes : Int) :
    ventasTotal orders = ((orders.take 10).map (fun p => p.total)).sum ∧
    pedidosMes orders inicioMes =
      ((orders.take 10).filter (fun p => decide (inicioMes ≤ p.fecha_pedido))).length ∧
    ((∀ p ∈ orders.take 10, clientName? p = none) →
      clienteMasActivo orders = "Sin datos") ∧
    ((∃ p ∈ orders.take 10, clientName? p ≠ none) →
      ∃ n : String,
        clienteMasActivo orders = n ∧
        (∃ p ∈ orders.take 10, clientName? p = some n) ∧
        (∀ m : String, countName m (orders.take 10) ≤ countName n (orders.take 10))) := by
  have hspec := foldl_dashStep_spec (fetchedOrders orders) []
  have hcnt : ∀ k : String, cntVal (clienteCounts orders) k =
      countName k (orders.take 10) := by
    intro k
    have h2 := hspec.2.2 k
    have h0 : cntVal [] k = 0 := rfl
    rw [h0, Nat.zero_add] at h2
    exact h2
  refine ⟨?_, rfl, ?_, ?_⟩
  · rw [ventasTotal, foldl_add_eq_int, zero_add]
    rfl
  · intro hall
    rcases hvc : clienteCounts orders with _ | ⟨e, rest⟩
    · rw [clienteMasActivo, hvc]
      rfl
    · exfalso
      have he1 : e.1 ∈ (clienteCounts orders).map Prod.fst := by
        rw [hvc]
        exact List.mem_map.mpr ⟨e, List.mem_cons_self e rest, rfl⟩
      rcases (hspec.2.1 e.1).mp he1 with h0 | ⟨p, hp, hn⟩
      · simp at h0
      · rw [hall p hp] at hn
        exact absurd hn (by simp)
  · rintro ⟨p, hp, hne⟩
    rcases hcn : clientName? p with _ | n0
    · exact absurd hcn hne
    rcases hs : List.insertionSort countGE (clienteCounts orders) with _ | ⟨e, rest⟩
    · exfalso
      have hn0 : n0 ∈ (clienteCounts orders).map Prod.fst :=
        (hspec.2.1 n0).mpr (Or.inr ⟨p, hp, hcn⟩)
      have hperm := List.perm_insertionSort countGE (clienteCounts orders)
      rw [hs] at hperm
      rw [hperm.symm.eq_nil] at hn0
      simp at hn0
    · have hperm := List.perm_insertionSort countGE (clienteCounts orders)
      rw [hs] at hperm
      have he : e ∈ clienteCounts orders :=
        hperm.mem_iff.mp (List.mem_cons_self e rest)
      have hnodup : ((clienteCounts orders).map Prod.fst).Nodup := hspec.1 (by simp)
      have hev : cntVal (clienteCounts orders) e.1 = e.2 :=
        cntVal_of_mem _ hnodup e he
      have hmax := insertionSort_head_max (clienteCounts orders) e rest hs
      refine ⟨e.1, ?_, ?_, ?_⟩
      · rw [clienteMasActivo, hs]
      · have hm : e.1 ∈ (clienteCounts orders).map Prod.fst :=
          List.mem_map.mpr ⟨e, he, rfl⟩
        rcases (hspec.2.1 e.1).mp hm with h0 | h0
        · simp at h0
        · exact h0
      · intro m
        rw [← hcnt m, ← hcnt e.1, hev]
        by_cases hm : ∃ x ∈ clienteCounts orders, x.1 = m
        · rcases hm with ⟨x, hx, hxm⟩
          rw [← hxm, cntVal_of_mem _ hnodup x hx]
          exact hmax x hx
        · rw [cntVal_eq_zero _ m hm]
          exact Nat.zero_le _

def demoDOrders : List DOrder :=
  [⟨100, 5, some "acme"⟩, ⟨50, -3, some "acme"⟩, ⟨20, 1, some "beta"⟩]

/-- Witness for the amended C5: on three fetched orders the top client's
fetched-order count dominates any other name's count. -/
theorem dashboard_stats_over_fetched_witness :
    countName "beta" (demoDOrders.take 10) ≤
      countName (clienteMasActivo demoDOrders) (demoDOrders.take 10) := by
  obtain ⟨n, hn, _, hmax⟩ :=
    (dashboard_stats_over_fetched demoDOrders 0).2.2.2
      ⟨⟨100, 5, some "acme"⟩, by decide, by decide⟩
  rw [hn]
  exact hmax "beta"

/-! ## The `useOrderOperations` hook

Each operation issues one or more backend requests, catches any error in
a `try`/`catch` and returns `false` (or `[]`) instead of throwing.  We
model a request as a value of `Req`, the backend as an oracle saying
which requests succeed, and each operation as a pure function returning
its result together with the trace of requests it issued, in order. -/

inductive Req where
  | updateItem (itemId : String) (estado : String) (notas : Option String)
  | updateOrderNotes (pedidoId : String) (notas : Option String)
  | updateOrderDelivery (pedidoId : String) (fecha : String)
  | updateOrderEstado (pedidoId : String) (estado : String) (notas : Option String)
  | rpcStock (ids : List String)
  deriving DecidableEq, Repr

structure StockRow where
  producto_id : String
  stock_disponible : Int
  nombre : String
  deriving DecidableEq, Repr

/-- The backend oracle: which requests succeed and the rpc payload
(`data`, possibly null) when the stock rpc succeeds. -/
structure Backend where
  ok : Req → Bool
  stockData : Option (List StockRow)

structure SelItem where
  itemId : String
  confirmed : Bool
  notes : Option String
  deriving DecidableEq, Repr

/-- `confirmed ? 'confirmado' : 'no_confirmado'`. -/
def selEstado (s : SelItem) : String :=
  if s.confirmed then "confirmado" else "no_confirmado"

def itemReqsOf (sel : List SelItem) : List Req :=
  sel.map (fun s => Req.updateItem s.itemId (selEstado s) s.notes)

/-- `confirmPartialOrder`: all per-item updates are started before
`Promise.all` settles, so each is issued exactly once; the order-notes
update runs only when every item update succeeded; any error is caught
and turned into `false`. -/
def confirmPartialOrder (b : Backend) (pedidoId : String) (sel : List SelItem)
    (notes : Option String) : Bool × List Req :=
  let itemReqs := itemReqsOf sel
  if itemReqs.all b.ok then
    let oreq := Req.updateOrderNotes pedidoId notes
    (b.ok oreq, itemReqs ++ [oreq])
  else (false, itemReqs)

def updateItemStatus (b : Backend) (itemId newStatus : String)
    (notes : Option String) : Bool × List Req :=
  (b.ok (Req.updateItem itemId newStatus notes),
    [Req.updateItem itemId newStatus notes])

def checkStockAvailability (b : Backend) (ids : List String) :
    List StockRow × List Req :=
  (if b.ok (Req.rpcStock ids) then b.stockData.getD [] else [], [Req.rpcStock ids])

def scheduleDelivery (b : Backend) (pedidoId fecha : String) : Bool × List Req :=
  (b.ok (Req.updateOrderDelivery pedidoId fecha),
    [Req.updateOrderDelivery pedidoId fecha])

def updateOrderStatus (b : Backend) (pedidoId estado : String)
    (notes : Option String) : Bool × List Req :=
  (b.ok (Req.updateOrderEstado pedidoId estado notes),
    [Req.updateOrderEstado pedidoId estado notes])

/-- The item id a request addresses (used to transport `Nodup`). -/
def reqItemId : Req → String
  | .updateItem i _ _ => i
  | _ => ""

theorem itemReqsOf_nodup (sel : List SelItem)
    (hsel : (sel.map SelItem.itemId).Nodup) : (itemReqsOf sel).Nodup := by
  apply List.Nodup.of_map reqItemId
  have h : (itemReqsOf sel).map reqItemId = sel.map SelItem.itemId := by
    rw [itemReqsOf, List.map_map]
    rfl
  rw [h]
  exact hsel

/-- C6: every operation of `useOrderOperations` catches backend errors
and returns its failure value (`false`, or `[]` for the stock check)
rather than propagating them, returns its success value when no request
fails, and issues each request at most once — it never retries. -/
theorem useOrderOperations_error_handling
    (b : Backend) (pedidoId itemId newStatus fecha estado : String)
    (notes itemNotes : Option String) (sel : List SelItem) (ids : List String)
    (hsel : (sel.map SelItem.itemId).Nodup) :
    ((confirmPartialOrder b pedidoId sel notes).1 = true ↔
      ∀ r ∈ (confirmPartialOrder b pedidoId sel notes).2, b.ok r = true) ∧
    (confirmPartialOrder b pedidoId sel notes).2.Nodup ∧
    (updateItemStatus b itemId newStatus itemNotes).1 =
      b.ok (Req.updateItem itemId newStatus itemNotes) ∧
    (updateItemStatus b itemId newStatus itemNotes).2 =
      [Req.updateItem itemId newStatus itemNotes] ∧
    (b.ok (Req.rpcStock ids) = false → (checkStockAvailability b ids).1 = []) ∧
    (b.ok (Req.rpcStock ids) = true →
      (checkStockAvailability b ids).1 = b.stockData.getD []) ∧
    (checkStockAvailability b ids).2 = [Req.rpcStock ids] ∧
    (scheduleDelivery b pedidoId fecha).1 =
      b.ok (Req.updateOrderDelivery pedidoId fecha) ∧
    (scheduleDelivery b pedidoId fecha).2 =
      [Req.updateOrderDelivery pedidoId fecha] ∧
    (updateOrderStatus b pedidoId estado notes).1 =
      b.ok (Req.updateOrderEstado pedidoId estado notes) ∧
    (updateOrderStatus b pedidoId estado notes).2 =
      [Req.updateOrderEstado pedidoId estado notes] := by
  have hitems : (itemReqsOf sel).Nodup := itemReqsOf_nodup sel hsel
  refine ⟨?_, ?_, rfl, rfl, ?_, ?_, rfl, rfl, rfl, rfl, rfl⟩
  · by_cases hall : (itemReqsOf sel).all b.ok = true
    · have hec1 : (confirmPartialOrder b pedidoId sel notes).1 =
          b.ok (Req.updateOrderNotes pedidoId notes) := by
        simp [confirmPartialOrder, hall]
      have hec2 : (confirmPartialOrder b pedidoId sel notes).2 =
          itemReqsOf sel ++ [Req.updateOrderNotes pedidoId notes] := by
        simp [confirmPartialOrder, hall]
      rw [hec1, hec2]
      constructor
      · intro hok r hr
        rcases List.mem_append.mp hr with h | h
        · exact List.all_eq_true.mp hall r h
        · rcases List.mem_singleton.mp h with rfl
          exact hok
      · intro h
        exact h (Req.updateOrderNotes pedidoId notes)
          (List.mem_append.mpr (Or.inr (List.mem_singleton.mpr rfl)))
    · have hec1 : (confirmPartialOrder b pedidoId sel notes).1 = false := by
        simp [confirmPartialOrder, hall]
      have hec2 : (confirmPartialOrder b pedidoId sel notes).2 = itemReqsOf sel := by
        simp [confirmPartialOrder, hall]
      rw [hec1, hec2]
      constructor
      · intro h
        simp at h
      · intro h
        exact absurd (List.all_eq_true.mpr h) hall
  · by_cases hall : (itemReqsOf sel).all b.ok = true
    · have hec2 : (confirmPartialOrder b pedidoId sel notes).2 =
          itemReqsOf sel ++ [Req.updateOrderNotes pedidoId notes] := by
        simp [confirmPartialOrder, hall]
      rw [hec2, List.nodup_append]
      refine ⟨hitems, List.nodup_singleton _, ?_⟩
      intro r hr hmem
      rcases List.mem_singleton.mp hmem with rfl
      rcases List.mem_map.mp hr with ⟨s, _, heq⟩
      exact Req.noConfusion heq
    · have hec2 : (confirmPartialOrder b pedidoId sel notes).2 = itemReqsOf sel := by
        simp [confirmPartialOrder, hall]
      rw [hec2]
      exact hitems
  · intro h
    show (if b.ok (Req.rpcStock ids) = true then _ else _) = _
    rw [if_neg (by rw [h]; exact Bool.false_ne_true)]
  · intro h
    show (if b.ok (Req.rpcStock ids) = true then _ else _) = _
    rw [if_pos h]

def demoBackendDown : Backend := ⟨fun _ => false, none⟩

def demoSel : List SelItem := [⟨"i1", true, none⟩, ⟨"i2", false, some "bajo stock"⟩]

/-- Witness for C6: with a failing backend the confirm trace (the two
item updates, no order update) has no duplicate request. -/
theorem useOrderOperations_error_handling_witness :
    (confirmPartialOrder demoBackendDown "p1" demoSel none).2.Nodup :=
  (useOrderOperations_error_handling demoBackendDown "p1" "i1" "confirmado"
    "2025-01-01" "enviado" none none demoSel ["prod1"] (by decide)).2.1

/-- C7: `confirmPartialOrder` issues exactly one update per selected item
(status `confirmado` when the flag is set, `no_confirmado` otherwise);
when any per-item update fails it returns `false`, issues no request
that undoes the item updates already made, and never writes the
order-level notes — the write is not atomic and nothing is recovered. -/
theorem confirmPartialOrder_not_atomic (b : Backend) (pedidoId : String)
    (sel : List SelItem) (notes : Option String)
    (hfail : ∃ s ∈ sel, b.ok (Req.updateItem s.itemId (selEstado s) s.notes) = false) :
    (confirmPartialOrder b pedidoId sel notes).1 = false ∧
    (confirmPartialOrder b pedidoId sel notes).2 =
      sel.map (fun s => Req.updateItem s.itemId
        (if s.confirmed then "confirmado" else "no_confirmado") s.notes) ∧
    (∀ (q : String) (n : Option String),
      Req.updateOrderNotes q n ∉ (confirmPartialOrder b pedidoId sel notes).2) := by
  have hall : ¬(itemReqsOf sel).all b.ok = true := by
    intro hall
    rcases hfail with ⟨s, hs, hno⟩
    have h := List.all_eq_true.mp hall (Req.updateItem s.itemId (selEstado s) s.notes)
      (List.mem_map.mpr ⟨s, hs, rfl⟩)
    rw [h] at hno
    exact Bool.noConfusion hno
  have hec1 : (confirmPartialOrder b pedidoId sel notes).1 = false := by
    simp [confirmPartialOrder, hall]
  have hec2 : (confirmPartialOrder b pedidoId sel notes).2 = itemReqsOf sel := by
    simp [confirmPartialOrder, hall]
  refine ⟨hec1, hec2.trans ?_, ?_⟩
  · exact List.map_congr_left fun s _ => by rw [selEstado]
  · intro q n hmem
    rw [hec2] at hmem
    rcases List.mem_map.mp hmem with ⟨s, _, heq⟩
    exact Req.noConfusion heq

/-- Witness for C7: with a failing backend and two selected items the
operation returns `false`. -/
theorem confirmPartialOrder_not_atomic_witness :
    (confirmPartialOrder demoBackendDown "p1" demoSel none).1 = false :=
  (confirmPartialOrder_not_atomic demoBackendDown "p1" demoSel none
    ⟨⟨"i1", true, none⟩, by decide, by decide⟩).1

/-! ## Quote calculator (`BusinessTools.tsx`)

A quote item embeds the product (id and price) plus a quantity and a
percentage discount.  `addProductToQuote` increments the quantity of an
existing entry instead of appending, `updateQuantity` removes the item
at a non-positive quantity, `updateDiscount` clamps to `[0, 100]`. -/

structure QuoteItem where
  productId : String
  precio : Rat
  quantity : Int
  discount : Rat
  deriving DecidableEq, Repr

def addProductToQuote (items : List QuoteItem) (pid : String) (precio : Rat) :
    List QuoteItem :=
  if ∃ it ∈ items, it.productId = pid then
    items.map (fun it => if it.productId = pid then
      { it with quantity := it.quantity + 1 } else it)
  else items ++ [{ productId := pid, precio := precio, quantity := 1, discount := 0 }]

def updateQuantity (items : List QuoteItem) (productId : String) (newQuantity : Int) :
    List QuoteItem :=
  if newQuantity ≤ 0 then items.filter (fun it => decide (it.productId ≠ productId))
  else items.map (fun it => if it.productId = productId then
    { it with quantity := newQuantity } else it)

def updateDiscount (items : List QuoteItem) (productId : String) (d : Rat) :
    List QuoteItem :=
  items.map (fun it => if it.productId = productId then
    { it with discount := max 0 (min 100 d) } else it)

/-- The quote-state invariant: one entry per product id, quantities at
least 1, discounts within `[0, 100]`. -/
def QuoteInv (items : List QuoteItem) : Prop :=
  (items.map QuoteItem.productId).Nodup ∧
  ∀ it ∈ items, 1 ≤ it.quantity ∧ 0 ≤ it.discount ∧ it.discount ≤ 100

theorem quote_names_map (items : List QuoteItem) (f : QuoteItem → QuoteItem)
    (hf : ∀ it, (f it).productId = it.productId) :
    (items.map f).map QuoteItem.productId = items.map QuoteItem.productId := by
  rw [List.map_map]
  exact List.map_congr_left fun it _ => hf it

/-- C8: the three quote operations preserve the invariant; re-adding an
existing product keeps the length (and bumps that entry's quantity by
one) instead of appending, and a non-positive quantity removes every
entry for that product. -/
theorem quote_calculator_invariants (items : List QuoteItem) (pid pid2 pid3 : String)
    (precio : Rat) (q : Int) (d : Rat) (h : QuoteInv items) :
    QuoteInv (addProductToQuote items pid precio) ∧
    QuoteInv (updateQuantity items pid2 q) ∧
    QuoteInv (updateDiscount items pid3 d) ∧
    ((∃ it ∈ items, it.productId = pid) →
      (addProductToQuote items pid precio).length = items.length) ∧
    ((∃ it ∈ items, it.productId = pid) →
      ∀ it2 ∈ addProductToQuote items pid precio, it2.productId = pid →
        ∃ it ∈ items, it.productId = pid ∧ it2.quantity = it.quantity + 1) ∧
    (q ≤ 0 → ∀ it ∈ updateQuantity items pid2 q, it.productId ≠ pid2) := by
  obtain ⟨hnd, hinv⟩ := h
  refine ⟨?_, ?_, ?_, ?_, ?_, ?_⟩
  · unfold addProductToQuote
    by_cases hp : ∃ it ∈ items, it.productId = pid
    · rw [if_pos hp]
      constructor
      · rw [quote_names_map items _ (fun it => by
          by_cases hc : it.productId = pid <;> simp [hc])]
        exact hnd
      · intro it2 hit2
        rcases List.mem_map.mp hit2 with ⟨it, hit, rfl⟩
        by_cases hc : it.productId = pid
        · rw [if_pos hc]
          have hi := hinv it hit
          have h1 : 1 ≤ it.quantity := hi.1
          exact ⟨show 1 ≤ it.quantity + 1 by omega, hi.2.1, hi.2.2⟩
        · rw [if_neg hc]
          exact hinv it hit
    · rw [if_neg hp]
      constructor
      · rw [List.map_append]
        rw [List.nodup_append]
        refine ⟨hnd, List.nodup_singleton _, ?_⟩
        intro n hn hm
        rcases List.mem_singleton.mp hm with rfl
        rcases List.mem_map.mp hn with ⟨it, hit, hid⟩
        exact hp ⟨it, hit, hid⟩
      · intro it2 hit2
        rcases List.mem_append.mp hit2 with hold | hnew
        · exact hinv it2 hold
        · rcases List.mem_singleton.mp hnew with rfl
          refine ⟨le_refl 1, le_refl 0, by norm_num⟩
  · unfold updateQuantity
    by_cases hq : q ≤ 0
    · rw [if_pos hq]
      constructor
      · exact List.Nodup.sublist ((List.filter_sublist items).map QuoteItem.productId) hnd
      · intro it hit
        exact hinv it (List.mem_of_mem_filter hit)
    · rw [if_neg hq]
      constructor
      · rw [quote_names_map items _ (fun it => by
          by_cases hc : it.productId = pid2 <;> simp [hc])]
        exact hnd
      · intro it2 hit2
        rcases List.mem_map.mp hit2 with ⟨it, hit, rfl⟩
        by_cases hc : it.productId = pid2
        · rw [if_pos hc]
          have hi := hinv it hit
          exact ⟨show 1 ≤ q by omega, hi.2.1, hi.2.2⟩
        · rw [if_neg hc]
          exact hinv it hit
  · unfold updateDiscount
    constructor
    · rw [quote_names_map items _ (fun it => by
        by_cases hc : it.productId = pid3 <;> simp [hc])]
      exact hnd
    · intro it2 hit2
      rcases List.mem_map.mp hit2 with ⟨it, hit, rfl⟩
      by_cases hc : it.productId = pid3
      · rw [if_pos hc]
        refine ⟨(hinv it hit).1, le_max_left 0 _, ?_⟩
        exact max_le (by norm_num) (min_le_left 100 d)
      · rw [if_neg hc]
        exact hinv it hit
  · intro hp
    unfold addProductToQuote
    rw [if_pos hp, List.length_map]
  · intro hp it2 hit2 hid2
    unfold addProductToQuote at hit2
    rw [if_pos hp] at hit2
    rcases List.mem_map.mp hit2 with ⟨it, hit, rfl⟩
    by_cases hc : it.productId = pid
    · rw [if_pos hc] at hid2 ⊢
      exact ⟨it, hit, hc, rfl⟩
    · rw [if_neg hc] at hid2
      exact absurd hid2 hc
  · intro hq it hit
    unfold updateQuantity at hit
    rw [if_pos hq] at hit
    have hmem := List.mem_filter.mp hit
    exact of_decide_eq_true hmem.2

def demoQuote : List QuoteItem :=
  [{ productId := "a", precio := 10, quantity := 2, discount := 50 }]

/-- Witness for C8: the invariant holds on a concrete state and is kept
by re-adding the existing product. -/
theorem quote_calculator_invariants_witness :
    QuoteInv (addProductToQuote demoQuote "a" 10) :=
  (quote_calculator_invariants demoQuote "a" "a" "a" 10 0 0 ⟨by decide, by decide⟩).1

/-- C1: on every item-status change, the trigger recomputation sets the
parent order's status to `preparacion` when every item of the order has
status `confirmado`; otherwise to `confirmado_parcial` when at least one
item has status `confirmado` or `no_confirmado`; otherwise it leaves the
order's status unchanged. -/
theorem trigger_sets_status_by_item_confirmations
    (items : List ItemEstado) (cur : OrderEstado) :
    update_order_status_from_items items cur =
      if ∀ i ∈ items, i = ItemEstado.confirmado then OrderEstado.preparacion
      else if ∃ i ∈ items, i = ItemEstado.confirmado ∨ i = ItemEstado.no_confirmado then
        OrderEstado.confirmado_parcial
      else cur := by
  unfold update_order_status_from_items
  by_cases h1 : ∀ i ∈ items, i = ItemEstado.confirmado
  · rw [if_pos (List.countP_eq_length.mpr (by simpa using h1)), if_pos h1]
  · rw [if_neg (fun hc => h1 (by simpa using List.countP_eq_length.mp hc)), if_neg h1]
    by_cases h2 : ∃ i ∈ items, i = ItemEstado.confirmado ∨ i = ItemEstado.no_confirmado
    · rw [if_pos (List.countP_pos_iff.mpr (by simpa using h2)), if_pos h2]
    · rw [if_neg (fun hc => h2 (by simpa using List.countP_pos_iff.mp hc)), if_neg h2]

/-- C9: the item-driven recomputation never assigns any status other than
`preparacion` or `confirmado_parcial` — it makes one of those two
assignments or leaves the status as it was — and when every item is
`confirmado` the order is set to `preparacion` whatever its current
status (including `entregado` or `cancelado`). -/
theorem trigger_only_preparacion_or_parcial
    (items : List ItemEstado) (cur : OrderEstado) :
    (update_order_status_from_items items cur = OrderEstado.preparacion ∨
     update_order_status_from_items items cur = OrderEstado.confirmado_parcial ∨
     update_order_status_from_items items cur = cur) ∧
    ((∀ i ∈ items, i = ItemEstado.confirmado) →
      update_order_status_from_items items cur = OrderEstado.preparacion) := by
  constructor
  · unfold update_order_status_from_items
    split
    · exact Or.inl rfl
    · split
      · exact Or.inr (Or.inl rfl)
      · exact Or.inr (Or.inr rfl)
  · intro h
    unfold update_order_status_from_items
    rw [if_pos (List.countP_eq_length.mpr (by simpa using h))]

/-- Witness for C9: an order whose single item is `confirmado` is moved to
`preparacion` even from current status `entregado`. -/
theorem trigger_only_preparacion_or_parcial_witness :
    update_order_status_from_items [ItemEstado.confirmado] OrderEstado.entregado =
      OrderEstado.preparacion :=
  (trigger_only_preparacion_or_parcial [ItemEstado.confirmado] OrderEstado.entregado).2
    (by decide)

/-- Counterexample to C2 as stated: the claim's cited order-status
display table `ORDER_STATUSES` (OrderTimeline) does not have seven
entries, its key `pendiente` is rejected by the
`pedidos_estado_workflow_check` constraint, and the constraint value
`recibido` has no entry — so its key set does not equal the seven
permitted values. -/
theorem order_statuses_counterexample :
    ORDER_STATUSES.length ≠ 7 ∧
    "pendiente" ∈ ORDER_STATUSES.map Prod.fst ∧
    pedidosEstadoWorkflowCheck "pendiente" = false ∧
    "recibido" ∉ ORDER_STATUSES.map Prod.fst := by
  decide

/-- C2 (amended): the operational order-status display configuration
`ORDER_STATUS_CONFIG` has exactly seven entries, one per status (no
duplicate keys), each carrying a label, a color and a progress
percentage, and its key set equals the seven values permitted by the
`pedidos_estado_workflow_check` constraint; the repository's second
order-status display table, `ORDER_STATUSES` in the OrderTimeline
component, is not such a table: it has six entries keyed `pendiente`,
`confirmado`, `en_proceso`, `enviado`, `entregado`, `cancelado`, a key
set that does not equal the constraint's seven values. -/
theorem order_status_tables_spec :
    ORDER_STATUS_CONFIG.length = 7 ∧
    (ORDER_STATUS_CONFIG.map Prod.fst).Nodup ∧
    (∀ s ∈ ORDER_STATUS_CONFIG.map Prod.fst, pedidosEstadoWorkflowCheck s = true) ∧
    (∀ s : String, pedidosEstadoWorkflowCheck s = true →
      s ∈ ORDER_STATUS_CONFIG.map Prod.fst) ∧
    (∀ e ∈ ORDER_STATUS_CONFIG, e.2.progress ≤ 100) ∧
    ORDER_STATUSES.length = 6 ∧
    (ORDER_STATUSES.map Prod.fst).Nodup ∧
    ORDER_STATUSES.map Prod.fst =
      ["pendiente", "confirmado", "en_proceso", "enviado", "entregado", "cancelado"] ∧
    ¬(∀ s ∈ ORDER_STATUSES.map Prod.fst, pedidosEstadoWorkflowCheck s = true) := by
  refine ⟨rfl, by decide, by decide, ?_, by decide, rfl, by decide, rfl, by decide⟩
  intro s hs
  have hmap : ORDER_STATUS_CONFIG.map Prod.fst =
      ["recibido", "revision", "confirmado_parcial", "preparacion",
       "enviado", "entregado", "cancelado"] := rfl
  rw [hmap]
  exact of_decide_eq_true hs

/-- Witness for the amended C2: the constraint value `recibido` is a key
of the operational configuration table. -/
theorem order_status_tables_spec_witness :
    "recibido" ∈ ORDER_STATUS_CONFIG.map Prod.fst :=
  order_status_tables_spec.2.2.2.1 "recibido" (by decide)

/-- C10: the variant `StatusBadge` derives from a status string is
invariant under letter case, is never `pending`, and both `pendiente`
and `pending` map to `warning`. -/
theorem statusBadge_variant_case_invariant (s : String) :
    getVariantFromStatus (jsToLower s) = getVariantFromStatus s ∧
    getVariantFromStatus s ≠ "pending" ∧
    getVariantFromStatus "pendiente" = "warning" ∧
    getVariantFromStatus "pending" = "warning" := by
  have hdef : ∀ t : String, getVariantFromStatus t =
      (if jsToLower t ∈ ["activo", "active", "confirmado", "entregado", "success"] then
        "success"
      else if jsToLower t ∈ ["inactivo", "inactive", "cancelado", "error"] then "error"
      else if jsToLower t ∈ ["pendiente", "pending", "revision", "preparacion"] then
        "warning"
      else "default") := fun _ => rfl
  refine ⟨?_, ?_, by decide, by decide⟩
  · rw [hdef, hdef, jsToLower_idem]
  · rw [hdef]
    split
    · decide
    · split
      · decide
      · split
        · decide
        · decide

end Barplas
